import Mathlib

/-!
Verification of the auto-sort script (src/main.py) against its specification.

The script watches a Downloads directory and, on each non-directory
"modified" event, lists the directory and moves every non-hidden,
non-directory entry whose extension occurs in EXTENSION_MAP into the
matching category subdirectory, resolving name collisions with numeric
suffixes base(1).ext, base(2).ext, ...

The embedding models the filesystem as an explicit state `FS`:
  * `entries`  - the immediate children of the watched root, in the order
                 `os.listdir` returns them, each tagged with whether it is
                 a directory;
  * `sub`      - pairs (d, n) recording that an object named n exists
                 inside the subdirectory d of the root (used by the
                 `os.path.exists` probes of `get_unique_path` and extended
                 by successful moves);
  * `rootGone`, `mkdirFail`, `moveFail` - fault injection for the three
                 failure modes the spec discusses: `os.listdir` raising,
                 `os.makedirs` raising for a given folder, and
                 `shutil.move` raising for a given source filename (with
                 the message the raised exception carries);
  * `log`      - the lines printed by the script.

Exceptions are modelled by returning the state reached so far together
with `some e`; Python's uncaught exceptions correspond to `some e`
propagating out of `sort_files`.
-/

namespace AutoSort

/-- Errors that can propagate uncaught out of the handler: `os.listdir`
failing (the root vanished) and `os.makedirs` failing for a folder. -/
inductive Err where
  | listFailed : Err
  | mkdirFailed : String → Err
deriving DecidableEq

/-- Filesystem state plus injected faults plus the printed log. -/
structure FS where
  entries : List (String × Bool)
  sub : List (String × String)
  rootGone : Bool
  mkdirFail : List String
  moveFail : List (String × String)
  log : List String
deriving DecidableEq

/-- EXTENSION_MAP of src/main.py lines 16-23, in its source order. -/
def EXTENSION_MAP : List (String × List String) :=
  [("Images", [".jpg", ".jpeg", ".png", ".gif", ".svg", ".bmp", ".webp"]),
   ("Documents", [".pdf", ".docx", ".doc", ".txt", ".xlsx", ".pptx", ".csv"]),
   ("Archives", [".zip", ".rar", ".7z", ".tar", ".gz"]),
   ("Video", [".mp4", ".mov", ".avi", ".mkv", ".wmv"]),
   ("Audio", [".mp3", ".wav", ".flac", ".m4a"]),
   ("Executables", [".exe", ".msi", ".dmg"])]

/-- Embedding of `filename.startswith('.')` on a basename. -/
def startsWithDot (n : String) : Bool :=
  match n.data with
  | [] => false
  | c :: _ => c == '.'

/-- Does an object (file or directory) named n exist directly in the
root?  Embeds `os.path.exists(os.path.join(DOWNLOADS_DIR, n))`. -/
def isRootEntry (fs : FS) (n : String) : Bool :=
  fs.entries.any (fun e => e.1 == n)

/-- Embeds `os.path.isdir(os.path.join(DOWNLOADS_DIR, n))`. -/
def isdir (fs : FS) (n : String) : Bool :=
  fs.entries.any (fun e => e.1 == n && e.2)

/-- Is n a non-directory entry of the root? -/
def isRootFile (fs : FS) (n : String) : Bool :=
  fs.entries.any (fun e => e.1 == n && !e.2)

/-- Embeds `os.path.exists(os.path.join(target_dir, n))` for the
subdirectory d of the root. -/
def subExists (fs : FS) (d n : String) : Bool :=
  fs.sub.any (fun p => p.1 == d && p.2 == n)

/-- Embeds `os.listdir(DOWNLOADS_DIR)`: the names of the immediate
children, in order. -/
def listdir (fs : FS) : List String :=
  fs.entries.map Prod.fst

/-- Splitting at the last dot: returns (prefix before the last dot,
suffix from the last dot on), or none when the list has no dot. -/
def splitLast : List Char → Option (List Char × List Char)
  | [] => none
  | c :: cs =>
    match splitLast cs with
    | some (b, e) => some (c :: b, e)
    | none => if c == '.' then some ([], c :: cs) else none

/-- Embedding of `os.path.splitext` on a basename: split at the final
dot, except that a name whose every character before that dot is itself
a dot (e.g. ".bashrc") has no extension. -/
def splitext (s : String) : String × String :=
  match splitLast s.data with
  | none => (s, "")
  | some (b, e) => if b.all (fun c => c == '.') then (s, "") else (⟨b⟩, ⟨e⟩)

/-- Embedding of `str.lower()` (the extensions involved are ASCII). -/
def strLower (s : String) : String :=
  ⟨s.data.map Char.toLower⟩

/-- Decimal rendering of the collision counter, embedding Python's
f-string formatting of an int. -/
def natToDec (n : Nat) : String :=
  if n = 0 then "0" else ⟨((Nat.digits 10 n).reverse.map Nat.digitChar)⟩

/-- Embedding of the `for folder_name, extensions in EXTENSION_MAP.items()`
loop of move_file (src/main.py lines 95-96 with the final `break`): the
first category whose extension list contains the extension. -/
def findCategory : List (String × List String) → String → Option String
  | [], _ => none
  | (folder, exts) :: rest, ext =>
    if ext ∈ exts then some folder else findCategory rest ext

/-- Classify a filename: `os.path.splitext(filename)[1].lower()` looked
up in EXTENSION_MAP (src/main.py line 93 and the loop). -/
def categoryOf (filename : String) : Option String :=
  findCategory EXTENSION_MAP (strLower (splitext filename).2)

/-- Candidate destination basenames probed by get_unique_path, in probe
order: the original filename, then base(1)ext, base(2)ext, ... -/
def candName (filename : String) : Nat → String
  | 0 => filename
  | Nat.succ k =>
    (splitext filename).1 ++ "(" ++ natToDec (k + 1) ++ ")" ++ (splitext filename).2

/-- The `while os.path.exists(unique_path):` loop of get_unique_path
(src/main.py lines 74-77).  `up` is the current candidate basename and
`counter` the next suffix to try.  The fuel argument is a bound on the
number of iterations; get_unique_path supplies a fuel proven sufficient
(the loop in the source runs unboundedly, and `guLoop_finds` below shows
the bound is never reached). -/
def guLoop (fs : FS) (target_dir base extension : String) :
    String → Nat → Nat → String
  | up, _, 0 => up
  | up, counter, Nat.succ fuel =>
    if subExists fs target_dir up then
      guLoop fs target_dir base extension
        (base ++ "(" ++ natToDec counter ++ ")" ++ extension) (counter + 1) fuel
    else up

/-- Embedding of get_unique_path (src/main.py lines 56-79).  The source
returns the full path `os.path.join(target_dir, name)`; since every path
it builds is of the form root/target_dir/name, the embedding returns the
basename `name` (the directory component being the `target_dir`
argument). -/
def get_unique_path (fs : FS) (target_dir filename : String) : String :=
  guLoop fs target_dir (splitext filename).1 (splitext filename).2
    filename 1 (fs.sub.length + 1)

/-- Log line printed on a successful move (src/main.py line 109). -/
def moveLine (filename dest : String) : String :=
  "Перемещен: " ++ filename ++ " -> " ++ dest

/-- Log line printed when shutil.move raises (src/main.py line 111). -/
def errLine (filename msg : String) : String :=
  "Ошибка при перемещении " ++ filename ++ ": " ++ msg

/-- Injected shutil.move fault for a source filename, with the message
of the exception it raises. -/
def lookupFail (l : List (String × String)) (n : String) : Option String :=
  (l.find? (fun p => p.1 == n)).map Prod.snd

/-- Embedding of the `try: shutil.move(...) except Exception` block of
move_file (src/main.py lines 105-111).  A move succeeds when the source
is still a file of the root and the target folder is a directory; it
fails (raising inside the try, hence caught and logged) when a fault is
injected for the source or those conditions do not hold. -/
def tryMove (fs : FS) (folder filename dest : String) : FS :=
  match lookupFail fs.moveFail filename with
  | some m => { fs with log := fs.log ++ [errLine filename m] }
  | none =>
    if isdir fs folder && isRootFile fs filename then
      { fs with
          entries := fs.entries.filter (fun e => e.1 != filename),
          sub := fs.sub ++ [(folder, dest)],
          log := fs.log ++ [moveLine filename dest] }
    else
      { fs with log := fs.log ++ [errLine filename "OSError"] }

/-- Embedding of move_file (src/main.py lines 81-112): classify by
lowercased extension; on a match, create the category folder if the path
does not exist (an `os.makedirs` fault propagates as an uncaught
exception, returning the unchanged state with the error), compute the
unique destination and attempt the move. -/
def move_file (fs : FS) (filename : String) : FS × Option Err :=
  match categoryOf filename with
  | none => (fs, none)
  | some folder =>
    if isRootEntry fs folder then
      (tryMove fs folder filename (get_unique_path fs folder filename), none)
    else if folder ∈ fs.mkdirFail then
      (fs, some (Err.mkdirFailed folder))
    else
      (tryMove { fs with entries := fs.entries ++ [(folder, true)] }
        folder filename
        (get_unique_path { fs with entries := fs.entries ++ [(folder, true)] }
          folder filename), none)

/-- The `for filename in os.listdir(DOWNLOADS_DIR):` loop of sort_files
(src/main.py lines 50-54) over the snapshot of names, threading the
filesystem state; an uncaught exception from move_file stops the loop. -/
def sortGo : FS → List String → FS × Option Err
  | fs, [] => (fs, none)
  | fs, n :: rest =>
    if isdir fs n || startsWithDot n then sortGo fs rest
    else
      match move_file fs n with
      | (fs1, none) => sortGo fs1 rest
      | (fs1, some e) => (fs1, some e)

/-- Embedding of sort_files (src/main.py lines 44-54): list the root
(raising when it is unavailable - nothing in the function catches this)
and process each name. -/
def sort_files (fs : FS) : FS × Option Err :=
  if fs.rootGone then (fs, some Err.listFailed)
  else sortGo fs (listdir fs)

/-- The kinds of watchdog filesystem events. -/
inductive EventKind where
  | created : EventKind
  | deleted : EventKind
  | modified : EventKind
  | moved : EventKind
deriving DecidableEq

/-- Embedding of SortingHandler.on_modified (src/main.py lines 34-42):
rescan unless the event concerns a directory. -/
def on_modified (fs : FS) (isDirectory : Bool) : FS × Option Err :=
  if !isDirectory then sort_files fs else (fs, none)

/-- Delivery of one event to the handler.  SortingHandler overrides only
on_modified (src/main.py line 34); the callbacks it inherits from
watchdog's FileSystemEventHandler for the other event kinds are no-ops. -/
def dispatch (fs : FS) (kind : EventKind) (isDirectory : Bool) : FS × Option Err :=
  match kind with
  | EventKind.modified => on_modified fs isDirectory
  | _ => (fs, none)

/-- Modelled from the spec: the watch facility itself (the watchdog
observer and its dispatch loop) is external to the repository.  Per the
spec it delivers a stream of change notifications serially to the one
handler and keeps the process alive across a failed rescan, so a handler
error ends that cycle only and the loop proceeds to the next event. -/
def runNotifications : FS → List (EventKind × Bool) → FS
  | fs, [] => fs
  | fs, (k, d) :: rest => runNotifications (dispatch fs k d).1 rest

/-- Well-formedness of a root directory state: distinct child names (as
on a real filesystem) and no plain file bearing a category name (such a
file would shadow the category folder and block its creation). -/
def wellFormed (fs : FS) : Prop :=
  (fs.entries.map Prod.fst).Nodup ∧
  ∀ p ∈ fs.entries, p.2 = false → p.1 ∉ EXTENSION_MAP.map Prod.fst

instance (fs : FS) : Decidable (wellFormed fs) := by
  unfold wellFormed; infer_instance

/-! Basic characterisations of the filesystem probes. -/

theorem isRootEntry_iff {fs : FS} {n : String} :
    isRootEntry fs n = true ↔ ∃ b, (n, b) ∈ fs.entries := by
  simp only [isRootEntry, List.any_eq_true, beq_iff_eq]
  constructor
  · rintro ⟨⟨a, b⟩, hmem, rfl⟩
    exact ⟨b, hmem⟩
  · rintro ⟨b, hmem⟩
    exact ⟨(n, b), hmem, rfl⟩

theorem isdir_iff {fs : FS} {n : String} :
    isdir fs n = true ↔ (n, true) ∈ fs.entries := by
  simp only [isdir, List.any_eq_true, Bool.and_eq_true, beq_iff_eq]
  constructor
  · rintro ⟨⟨a, b⟩, hmem, h1, h2⟩
    simp only at h1 h2
    subst h1; rw [h2] at hmem; exact hmem
  · intro hmem
    exact ⟨(n, true), hmem, rfl, rfl⟩

theorem isRootFile_iff {fs : FS} {n : String} :
    isRootFile fs n = true ↔ (n, false) ∈ fs.entries := by
  simp only [isRootFile, List.any_eq_true, Bool.and_eq_true, beq_iff_eq,
    Bool.not_eq_true']
  constructor
  · rintro ⟨⟨a, b⟩, hmem, h1, h2⟩
    simp only at h1 h2
    subst h1; rw [h2] at hmem; exact hmem
  · intro hmem
    exact ⟨(n, false), hmem, rfl, rfl⟩

theorem subExists_iff {fs : FS} {d n : String} :
    subExists fs d n = true ↔ (d, n) ∈ fs.sub := by
  simp only [subExists, List.any_eq_true, Bool.and_eq_true, beq_iff_eq]
  constructor
  · rintro ⟨⟨a, b⟩, hmem, h1, h2⟩
    simp only at h1 h2
    subst h1; subst h2; exact hmem
  · intro hmem
    exact ⟨(d, n), hmem, rfl, rfl⟩

theorem mem_listdir_iff {fs : FS} {n : String} :
    n ∈ listdir fs ↔ ∃ b, (n, b) ∈ fs.entries := by
  simp only [listdir, List.mem_map]
  constructor
  · rintro ⟨⟨a, b⟩, hmem, rfl⟩
    exact ⟨b, hmem⟩
  · rintro ⟨b, hmem⟩
    exact ⟨(n, b), hmem, rfl⟩

/-- In a list of pairs whose first components are distinct, two members
with equal first components are the same pair. -/
theorem keys_nodup_eq {l : List (String × Bool)} {p q : String × Bool}
    (hnd : (l.map Prod.fst).Nodup) (hp : p ∈ l) (hq : q ∈ l)
    (h : p.1 = q.1) : p = q := by
  induction l with
  | nil => cases hp
  | cons hd tl ih =>
    simp only [List.map_cons, List.nodup_cons] at hnd
    rcases List.mem_cons.1 hp with hp1 | hp1 <;>
      rcases List.mem_cons.1 hq with hq1 | hq1
    · rw [hp1, hq1]
    · exfalso
      exact hnd.1 (by rw [← hp1, h]; exact List.mem_map_of_mem Prod.fst hq1)
    · exfalso
      exact hnd.1 (by rw [← hq1, ← h]; exact List.mem_map_of_mem Prod.fst hp1)
    · exact ih hnd.2 hp1 hq1

/-- A well-formed state has no simultaneous file and directory with the
same name: a name that is a file is not seen as a directory. -/
theorem not_isdir_of_isRootFile {fs : FS} {n : String}
    (hnd : (fs.entries.map Prod.fst).Nodup) (hf : isRootFile fs n = true) :
    isdir fs n = false := by
  cases h : isdir fs n
  · rfl
  · exfalso
    have h1 := isRootFile_iff.1 hf
    have h2 := isdir_iff.1 h
    have := keys_nodup_eq hnd h1 h2 rfl
    simp at this

/-! String and decimal-rendering machinery for the collision candidates. -/

theorem string_data_append (s t : String) : (s ++ t).data = s.data ++ t.data := rfl

theorem string_data_inj {s t : String} (h : s.data = t.data) : s = t := by
  cases s; cases t; simp_all

theorem digitChar_inj10 :
    ∀ a, a < 10 → ∀ b, b < 10 → Nat.digitChar a = Nat.digitChar b → a = b := by
  decide

theorem map_digitChar_inj :
    ∀ l1 l2 : List Nat, (∀ d ∈ l1, d < 10) → (∀ d ∈ l2, d < 10) →
      l1.map Nat.digitChar = l2.map Nat.digitChar → l1 = l2 := by
  intro l1
  induction l1 with
  | nil =>
    intro l2 _ _ h
    cases l2 with
    | nil => rfl
    | cons b bs => simp at h
  | cons a as ih =>
    intro l2 h1 h2 h
    cases l2 with
    | nil => simp at h
    | cons b bs =>
      simp only [List.map_cons, List.cons.injEq] at h
      have ha : a = b :=
        digitChar_inj10 a (h1 a (List.mem_cons_self a as)) b
          (h2 b (List.mem_cons_self b bs)) h.1
      have hrest : as = bs :=
        ih bs (fun d hd => h1 d (List.mem_cons_of_mem a hd))
          (fun d hd => h2 d (List.mem_cons_of_mem b hd)) h.2
      rw [ha, hrest]

theorem natToDec_inj {m n : Nat} (h : natToDec m = natToDec n) : m = n := by
  have digits_lt : ∀ k : Nat, ∀ d ∈ Nat.digits 10 k, d < 10 := by
    intro k d hd
    exact Nat.digits_lt_base (by norm_num) hd
  have key : ∀ k : Nat, k ≠ 0 → natToDec k ≠ "0" ∨ Nat.digits 10 k = [0] := by
    intro k hk
    by_cases h0 : natToDec k = "0"
    · right
      have hdata : ((Nat.digits 10 k).reverse.map Nat.digitChar) = ['0'] := by
        have := congrArg String.data h0
        simpa [natToDec, hk] using this
      have hlen : (Nat.digits 10 k).length = 1 := by
        have := congrArg List.length hdata
        simpa using this
      rcases List.length_eq_one.1 hlen with ⟨d, hd⟩
      have hdchar : Nat.digitChar d = '0' := by
        rw [hd] at hdata
        simpa using hdata
      have hdlt : d < 10 := digits_lt k d (by rw [hd]; exact List.mem_singleton.2 rfl)
      have hd0 : d = 0 :=
        digitChar_inj10 d hdlt 0 (by norm_num) (by rw [hdchar]; rfl)
      rw [hd, hd0]
    · left; exact h0
  by_cases hm : m = 0 <;> by_cases hn : n = 0
  · rw [hm, hn]
  · exfalso
    have h0 : natToDec n = "0" := by rw [← h, hm]; rfl
    rcases key n hn with hc | hc
    · exact hc h0
    · have := Nat.ofDigits_digits 10 n
      rw [hc] at this
      simp [Nat.ofDigits] at this
      exact hn this.symm
  · exfalso
    have h0 : natToDec m = "0" := by rw [h, hn]; rfl
    rcases key m hm with hc | hc
    · exact hc h0
    · have := Nat.ofDigits_digits 10 m
      rw [hc] at this
      simp [Nat.ofDigits] at this
      exact hm this.symm
  · have hdata := congrArg String.data h
    simp only [natToDec, hm, hn, if_false] at hdata
    have hrev : (Nat.digits 10 m).reverse = (Nat.digits 10 n).reverse :=
      map_digitChar_inj _ _
        (fun d hd => digits_lt m d (List.mem_reverse.1 hd))
        (fun d hd => digits_lt n d (List.mem_reverse.1 hd)) hdata
    have hdig : Nat.digits 10 m = Nat.digits 10 n := by
      have := congrArg List.reverse hrev
      simpa using this
    have := Nat.ofDigits_digits 10 m
    rw [hdig, Nat.ofDigits_digits 10 n] at this
    exact this.symm

theorem splitLast_append : ∀ cs b e : List Char,
    splitLast cs = some (b, e) → b ++ e = cs := by
  intro cs
  induction cs with
  | nil => intro b e h; simp [splitLast] at h
  | cons c rest ih =>
    intro b e h
    simp only [splitLast] at h
    cases hs : splitLast rest with
    | some pr =>
      rcases pr with ⟨b1, e1⟩
      rw [hs] at h
      simp only [Option.some.injEq, Prod.mk.injEq] at h
      rw [← h.1, ← h.2]
      simp [ih b1 e1 hs]
    | none =>
      rw [hs] at h
      by_cases hc : c == '.'
      · simp only [hc, if_true, Option.some.injEq, Prod.mk.injEq] at h
        rw [← h.1, ← h.2]
        rfl
      · simp [hc] at h

theorem splitext_append (s : String) : (splitext s).1 ++ (splitext s).2 = s := by
  unfold splitext
  cases hs : splitLast s.data with
  | none =>
    apply string_data_inj
    simp [string_data_append]
  | some pr =>
    rcases pr with ⟨b, e⟩
    by_cases hall : b.all (fun c => c == '.')
    · simp only [hall, if_true]
      apply string_data_inj
      simp [string_data_append]
    · simp only [hall, if_false]
      apply string_data_inj
      rw [string_data_append]
      exact splitLast_append s.data b e hs

theorem candName_inj (f : String) : ∀ i j, candName f i = candName f j → i = j := by
  have hlen : ∀ k, (candName f (k + 1)).data.length = (splitext f).1.data.length + 1 +
      (natToDec (k + 1)).data.length + 1 + (splitext f).2.data.length := by
    intro k
    simp only [candName, string_data_append, List.length_append, List.length_cons,
      List.length_nil]
  have hbase : f.data.length = (splitext f).1.data.length + (splitext f).2.data.length := by
    conv_lhs => rw [← splitext_append f]
    simp [string_data_append]
  intro i j h
  match i, j with
  | 0, 0 => rfl
  | 0, Nat.succ j =>
    exfalso
    have hL : (candName f 0).data.length = (candName f (j + 1)).data.length := by
      rw [h]
    rw [hlen j] at hL
    have h0 : (candName f 0).data.length = f.data.length := rfl
    rw [h0] at hL
    omega
  | Nat.succ i, 0 =>
    exfalso
    have hL : (candName f (i + 1)).data.length = (candName f 0).data.length := by
      rw [h]
    rw [hlen i] at hL
    have h0 : (candName f 0).data.length = f.data.length := rfl
    rw [h0] at hL
    omega
  | Nat.succ i, Nat.succ j =>
    have hdata := congrArg String.data h
    simp only [candName, string_data_append, List.append_assoc] at hdata
    have h1 := List.append_cancel_left hdata
    have h2 := List.append_cancel_left h1
    have h3 : (natToDec (i + 1)).data = (natToDec (j + 1)).data := by
      have h2' : (natToDec (i + 1)).data ++ [')'] ++ (splitext f).2.data =
          (natToDec (j + 1)).data ++ [')'] ++ (splitext f).2.data := by
        simpa [← List.append_assoc] using h2
      have h4 := List.append_cancel_right h2'
      exact List.append_cancel_right h4
    have := natToDec_inj (string_data_inj h3)
    omega

/-! Characterisation of the collision-resolution loop. -/

theorem candName_succ (f : String) (k : Nat) :
    (splitext f).1 ++ "(" ++ natToDec (k + 1) ++ ")" ++ (splitext f).2 =
      candName f (k + 1) := rfl

theorem guLoop_finds (fs : FS) (d f : String)
    (h : ∃ i, subExists fs d (candName f i) = false) :
    ∀ fuel k, (∀ i < k, subExists fs d (candName f i) = true) →
      Nat.find h < k + fuel →
      guLoop fs d (splitext f).1 (splitext f).2 (candName f k) (k + 1) fuel =
        candName f (Nat.find h) := by
  intro fuel
  induction fuel with
  | zero =>
    intro k hk hlt
    exfalso
    have h1 := hk (Nat.find h) (by omega)
    have h2 := Nat.find_spec h
    rw [h1] at h2
    cases h2
  | succ fuel ih =>
    intro k hk hlt
    by_cases hex : subExists fs d (candName f k) = true
    · have hstep : guLoop fs d (splitext f).1 (splitext f).2 (candName f k) (k + 1)
          (fuel + 1) =
          guLoop fs d (splitext f).1 (splitext f).2 (candName f (k + 1)) (k + 2) fuel := by
        rw [guLoop, if_pos hex, candName_succ]
      rw [hstep]
      have hk1 : ∀ i < k + 1, subExists fs d (candName f i) = true := by
        intro i hi
        rcases Nat.lt_succ_iff_lt_or_eq.1 hi with hi1 | hi1
        · exact hk i hi1
        · rw [hi1]; exact hex
      exact ih (k + 1) hk1 (by omega)
    · have hfree : subExists fs d (candName f k) = false := by
        cases hb : subExists fs d (candName f k)
        · rfl
        · exact absurd hb hex
      have hret : guLoop fs d (splitext f).1 (splitext f).2 (candName f k) (k + 1)
          (fuel + 1) = candName f k := by
        rw [guLoop, if_neg hex]
      have hle : Nat.find h ≤ k := Nat.find_min' h hfree
      have hge : k ≤ Nat.find h := by
        by_contra hcon
        push_neg at hcon
        have h1 := hk (Nat.find h) hcon
        have h2 := Nat.find_spec h
        rw [h1] at h2
        cases h2
      rw [hret, Nat.le_antisymm hle hge]

/-- Pigeonhole: among the first `fs.sub.length + 1` pairwise distinct
candidate names, at least one does not exist in the target directory. -/
theorem exists_free (fs : FS) (d f : String) :
    ∃ i, i ≤ fs.sub.length ∧ subExists fs d (candName f i) = false := by
  by_contra hcon
  push_neg at hcon
  have hall : ∀ i ≤ fs.sub.length, (d, candName f i) ∈ fs.sub := by
    intro i hi
    have hne := hcon i hi
    have hb : subExists fs d (candName f i) = true := by
      cases hb' : subExists fs d (candName f i)
      · exact absurd hb' hne
      · rfl
    exact subExists_iff.1 hb
  have hinj : Set.InjOn (fun i => (d, candName f i))
      ↑(Finset.range (fs.sub.length + 1)) := by
    intro a _ b _ hab
    simp only [Prod.mk.injEq] at hab
    exact candName_inj f a b hab.2
  have hsub : (Finset.range (fs.sub.length + 1)).image (fun i => (d, candName f i)) ⊆
      fs.sub.toFinset := by
    intro x hx
    simp only [Finset.mem_image, Finset.mem_range] at hx
    rcases hx with ⟨i, hi, rfl⟩
    exact List.mem_toFinset.2 (hall i (Nat.lt_succ_iff.1 hi))
  have hcard := Finset.card_le_card hsub
  rw [Finset.card_image_of_injOn hinj, Finset.card_range] at hcard
  have := List.toFinset_card_le fs.sub
  omega

/-- Full characterisation of get_unique_path: it returns the candidate
with the least index that does not exist in the target directory, every
earlier candidate existing; the index is at most the number of recorded
objects. -/
theorem get_unique_path_spec (fs : FS) (d f : String) :
    ∃ k, k ≤ fs.sub.length ∧
      get_unique_path fs d f = candName f k ∧
      (∀ i < k, subExists fs d (candName f i) = true) ∧
      subExists fs d (candName f k) = false := by
  have hex : ∃ i, subExists fs d (candName f i) = false := by
    rcases exists_free fs d f with ⟨i, _, hi⟩
    exact ⟨i, hi⟩
  have hle : Nat.find hex ≤ fs.sub.length := by
    rcases exists_free fs d f with ⟨i, hile, hi⟩
    exact le_trans (Nat.find_min' hex hi) hile
  refine ⟨Nat.find hex, hle, ?_, ?_, Nat.find_spec hex⟩
  · have := guLoop_finds fs d f hex (fs.sub.length + 1) 0
      (by intro i hi; omega)
      (by omega)
    simpa [get_unique_path, candName] using this
  · intro i hi
    have hmin := Nat.find_min hex hi
    cases hb : subExists fs d (candName f i)
    · exact absurd hb hmin
    · rfl

/-! Single-step lemmas about tryMove and move_file. -/

theorem tryMove_entries_keep {fs : FS} {folder filename dest : String}
    {p : String × Bool} (hp : p ∈ fs.entries) (hne : p.1 ≠ filename) :
    p ∈ (tryMove fs folder filename dest).entries := by
  unfold tryMove
  cases hl : lookupFail fs.moveFail filename with
  | some m => exact hp
  | none =>
    split_ifs with hcond
    · simp only [List.mem_filter]
      exact ⟨hp, by simpa using hne⟩
    · exact hp

theorem tryMove_sub_mono {fs : FS} {folder filename dest : String}
    {q : String × String} (hq : q ∈ fs.sub) :
    q ∈ (tryMove fs folder filename dest).sub := by
  unfold tryMove
  cases hl : lookupFail fs.moveFail filename with
  | some m => exact hq
  | none =>
    split_ifs with hcond
    · exact List.mem_append_left _ hq
    · exact hq

theorem tryMove_misc (fs : FS) (folder filename dest : String) :
    (tryMove fs folder filename dest).rootGone = fs.rootGone ∧
    (tryMove fs folder filename dest).mkdirFail = fs.mkdirFail ∧
    (tryMove fs folder filename dest).moveFail = fs.moveFail := by
  unfold tryMove
  cases hl : lookupFail fs.moveFail filename with
  | some m => exact ⟨rfl, rfl, rfl⟩
  | none =>
    split_ifs with hcond
    · exact ⟨rfl, rfl, rfl⟩
    · exact ⟨rfl, rfl, rfl⟩

theorem tryMove_log_mono {fs : FS} {folder filename dest : String}
    {x : String} (hx : x ∈ fs.log) :
    x ∈ (tryMove fs folder filename dest).log := by
  unfold tryMove
  cases hl : lookupFail fs.moveFail filename with
  | some m => exact List.mem_append_left _ hx
  | none =>
    split_ifs with hcond
    · exact List.mem_append_left _ hx
    · exact List.mem_append_left _ hx

theorem tryMove_entries_new {fs : FS} {folder filename dest : String}
    {p : String × Bool} (hp : p ∈ (tryMove fs folder filename dest).entries) :
    p ∈ fs.entries := by
  unfold tryMove at hp
  cases hl : lookupFail fs.moveFail filename with
  | some m => rw [hl] at hp; exact hp
  | none =>
    rw [hl] at hp
    by_cases hcond : (isdir fs folder && isRootFile fs filename) = true
    · rw [if_pos hcond] at hp
      exact (List.mem_filter.1 hp).1
    · rw [if_neg hcond] at hp
      exact hp

theorem move_file_entries_keep {fs : FS} {f : String} {p : String × Bool}
    (hp : p ∈ fs.entries) (hne : p.1 ≠ f) :
    p ∈ (move_file fs f).1.entries := by
  unfold move_file
  cases hcat : categoryOf f with
  | none => exact hp
  | some folder =>
    dsimp only
    split_ifs with h1 h2
    · exact tryMove_entries_keep hp hne
    · exact hp
    · exact tryMove_entries_keep (List.mem_append_left _ hp) hne

theorem move_file_sub_mono {fs : FS} {f : String} {q : String × String}
    (hq : q ∈ fs.sub) : q ∈ (move_file fs f).1.sub := by
  unfold move_file
  cases hcat : categoryOf f with
  | none => exact hq
  | some folder =>
    dsimp only
    split_ifs with h1 h2
    · exact tryMove_sub_mono hq
    · exact hq
    · exact tryMove_sub_mono hq

theorem move_file_misc (fs : FS) (f : String) :
    (move_file fs f).1.rootGone = fs.rootGone ∧
    (move_file fs f).1.mkdirFail = fs.mkdirFail ∧
    (move_file fs f).1.moveFail = fs.moveFail := by
  unfold move_file
  cases hcat : categoryOf f with
  | none => exact ⟨rfl, rfl, rfl⟩
  | some folder =>
    dsimp only
    split_ifs with h1 h2
    · exact tryMove_misc fs folder f _
    · exact ⟨rfl, rfl, rfl⟩
    · exact tryMove_misc _ folder f _

theorem move_file_log_mono {fs : FS} {f : String} {x : String}
    (hx : x ∈ fs.log) : x ∈ (move_file fs f).1.log := by
  unfold move_file
  cases hcat : categoryOf f with
  | none => exact hx
  | some folder =>
    dsimp only
    split_ifs with h1 h2
    · exact tryMove_log_mono hx
    · exact hx
    · exact tryMove_log_mono hx

theorem move_file_no_error {fs : FS} {f : String} (h : fs.mkdirFail = []) :
    (move_file fs f).2 = none := by
  unfold move_file
  cases hcat : categoryOf f with
  | none => rfl
  | some folder =>
    dsimp only
    split_ifs with h1 h2
    · rfl
    · rw [h] at h2; cases h2
    · rfl

theorem move_file_nocat {fs : FS} {f : String} (h : categoryOf f = none) :
    move_file fs f = (fs, none) := by
  unfold move_file
  rw [h]

theorem findCategory_mem {rules : List (String × List String)} {ext c : String}
    (h : findCategory rules ext = some c) : c ∈ rules.map Prod.fst := by
  induction rules with
  | nil => cases h
  | cons hd tl ih =>
    rcases hd with ⟨folder, exts⟩
    unfold findCategory at h
    split_ifs at h with hmem
    · simp only [Option.some.injEq] at h
      rw [← h]
      exact List.mem_cons_self _ _
    · exact List.mem_cons_of_mem _ (ih h)

theorem move_file_entries_new {fs : FS} {f : String} {p : String × Bool}
    (hp : p ∈ (move_file fs f).1.entries) :
    p ∈ fs.entries ∨ (p.2 = true ∧ p.1 ∈ EXTENSION_MAP.map Prod.fst) := by
  unfold move_file at hp
  cases hcat : categoryOf f with
  | none => rw [hcat] at hp; exact Or.inl hp
  | some folder =>
    rw [hcat] at hp
    dsimp only at hp
    have hfmem : folder ∈ EXTENSION_MAP.map Prod.fst := findCategory_mem hcat
    split_ifs at hp with h1 h2
    · exact Or.inl (tryMove_entries_new hp)
    · exact Or.inl hp
    · have := tryMove_entries_new hp
      rcases List.mem_append.1 this with h | h
      · exact Or.inl h
      · right
        have : p = (folder, true) := List.mem_singleton.1 h
        rw [this]
        exact ⟨rfl, hfmem⟩

/-- None of the six category names is itself classified (their names
contain no dot, hence have no extension). -/
theorem catNames_nocat : ∀ c ∈ EXTENSION_MAP.map Prod.fst, categoryOf c = none := by
  decide

theorem cat_not_catName {f c : String} (h : categoryOf f = some c) :
    f ∉ EXTENSION_MAP.map Prod.fst := by
  intro hmem
  have := catNames_nocat f hmem
  rw [h] at this
  cases this

theorem tryMove_fail {fs : FS} {folder filename dest m : String}
    (hmf : lookupFail fs.moveFail filename = some m) :
    tryMove fs folder filename dest =
      { fs with log := fs.log ++ [errLine filename m] } := by
  unfold tryMove
  rw [hmf]

theorem tryMove_success {fs : FS} {folder filename dest : String}
    (hmf : lookupFail fs.moveFail filename = none)
    (hdir : isdir fs folder = true) (hfile : isRootFile fs filename = true) :
    tryMove fs folder filename dest =
      { fs with
          entries := fs.entries.filter (fun e => e.1 != filename),
          sub := fs.sub ++ [(folder, dest)],
          log := fs.log ++ [moveLine filename dest] } := by
  unfold tryMove
  rw [hmf]
  rw [if_pos (by rw [hdir, hfile]; rfl)]

theorem tryMove_wf {fs : FS} {folder filename dest : String}
    (h : wellFormed fs) : wellFormed (tryMove fs folder filename dest) := by
  unfold tryMove
  cases hl : lookupFail fs.moveFail filename with
  | some m => exact h
  | none =>
    split_ifs with hcond
    · refine ⟨?_, ?_⟩
      · exact List.Nodup.sublist
          (List.Sublist.map Prod.fst (List.filter_sublist fs.entries)) h.1
      · intro p hp hp2
        exact h.2 p (List.mem_filter.1 hp).1 hp2
    · exact h

theorem move_file_wf {fs : FS} {f : String} (h : wellFormed fs) :
    wellFormed (move_file fs f).1 := by
  unfold move_file
  cases hcat : categoryOf f with
  | none => exact h
  | some folder =>
    dsimp only
    split_ifs with h1 h2
    · exact tryMove_wf h
    · exact h
    · apply tryMove_wf
      constructor
      · have hnotin : folder ∉ fs.entries.map Prod.fst := by
          intro hmem
          rcases List.mem_map.1 hmem with ⟨p, hp, hp1⟩
          exact h1 (isRootEntry_iff.2 ⟨p.2, by rw [← hp1]; exact hp⟩)
        simp only [List.map_append, List.map_cons, List.map_nil, List.nodup_append,
          List.nodup_cons, List.nodup_nil]
        refine ⟨h.1, ⟨by simp, by simp⟩, ?_⟩
        intro a ha hb
        simp only [List.mem_cons, List.not_mem_nil, or_false] at hb
        rw [hb] at ha
        exact hnotin ha
      · intro p hp hp2
        rcases List.mem_append.1 hp with hmem | hmem
        · exact h.2 p hmem hp2
        · have : p = (folder, true) := List.mem_singleton.1 hmem
          rw [this] at hp2
          cases hp2

theorem move_file_success {fs : FS} {f c : String}
    (hwf : wellFormed fs) (hcat : categoryOf f = some c)
    (hmf : lookupFail fs.moveFail f = none) (hfile : isRootFile fs f = true)
    (hmk : fs.mkdirFail = []) :
    (move_file fs f).2 = none ∧
    f ∉ ((move_file fs f).1.entries.map Prod.fst) ∧
    ∃ g, (c, g) ∈ (move_file fs f).1.sub ∧ ∃ k, g = candName f k := by
  have hnotinmap : ∀ l : List (String × Bool),
      f ∉ (l.filter (fun e => e.1 != f)).map Prod.fst := by
    intro l hmem
    rcases List.mem_map.1 hmem with ⟨p, hp, hp1⟩
    have := (List.mem_filter.1 hp).2
    rw [hp1] at this
    simp at this
  unfold move_file
  rw [hcat]
  dsimp only
  split_ifs with h1 h2
  · have hdir : isdir fs c = true := by
      rcases isRootEntry_iff.1 h1 with ⟨b, hb⟩
      cases b with
      | false =>
        exfalso
        exact hwf.2 (c, false) hb rfl (findCategory_mem hcat)
      | true => exact isdir_iff.2 hb
    rw [tryMove_success hmf hdir hfile]
    refine ⟨rfl, hnotinmap fs.entries, ?_⟩
    refine ⟨get_unique_path fs c f, by simp, ?_⟩
    rcases get_unique_path_spec fs c f with ⟨k, _, hk, _, _⟩
    exact ⟨k, hk⟩
  · rw [hmk] at h2
    cases h2
  · have hdir : isdir { fs with entries := fs.entries ++ [(c, true)] } c = true := by
      apply isdir_iff.2
      simp
    have hfile1 : isRootFile { fs with entries := fs.entries ++ [(c, true)] } f = true := by
      apply isRootFile_iff.2
      exact List.mem_append_left _ (isRootFile_iff.1 hfile)
    have hmf1 : lookupFail ({ fs with entries := fs.entries ++ [(c, true)] } : FS).moveFail
        f = none := hmf
    rw [tryMove_success hmf1 hdir hfile1]
    refine ⟨rfl, hnotinmap _, ?_⟩
    refine ⟨get_unique_path { fs with entries := fs.entries ++ [(c, true)] } c f,
      by simp, ?_⟩
    rcases get_unique_path_spec { fs with entries := fs.entries ++ [(c, true)] } c f
      with ⟨k, _, hk, _, _⟩
    exact ⟨k, hk⟩

theorem move_file_logs_err {fs : FS} {f c m : String}
    (hcat : categoryOf f = some c) (hmf : lookupFail fs.moveFail f = some m)
    (hmk : fs.mkdirFail = []) :
    errLine f m ∈ (move_file fs f).1.log := by
  unfold move_file
  rw [hcat]
  dsimp only
  split_ifs with h1 h2
  · rw [tryMove_fail hmf]
    simp
  · rw [hmk] at h2
    cases h2
  · have hmf1 : lookupFail ({ fs with entries := fs.entries ++ [(c, true)] } : FS).moveFail
        f = some m := hmf
    rw [tryMove_fail hmf1]
    simp

/-! Invariant lemmas about the sort_files loop. -/

theorem sortGo_sub_mono : ∀ (names : List String) (fs : FS), ∀ q ∈ fs.sub,
    q ∈ (sortGo fs names).1.sub := by
  intro names
  induction names with
  | nil => intro fs q hq; exact hq
  | cons n rest ih =>
    intro fs q hq
    rw [sortGo]
    split_ifs with hbr
    · exact ih fs q hq
    · rcases hmv : move_file fs n with ⟨fs1, err⟩
      have hq1 : q ∈ fs1.sub := by
        have := move_file_sub_mono (f := n) hq
        rw [hmv] at this
        exact this
      cases err with
      | none => exact ih fs1 q hq1
      | some e => exact hq1

theorem sortGo_log_mono : ∀ (names : List String) (fs : FS), ∀ x ∈ fs.log,
    x ∈ (sortGo fs names).1.log := by
  intro names
  induction names with
  | nil => intro fs x hx; exact hx
  | cons n rest ih =>
    intro fs x hx
    rw [sortGo]
    split_ifs with hbr
    · exact ih fs x hx
    · rcases hmv : move_file fs n with ⟨fs1, err⟩
      have hx1 : x ∈ fs1.log := by
        have := move_file_log_mono (f := n) hx
        rw [hmv] at this
        exact this
      cases err with
      | none => exact ih fs1 x hx1
      | some e => exact hx1

theorem sortGo_misc : ∀ (names : List String) (fs : FS),
    (sortGo fs names).1.rootGone = fs.rootGone ∧
    (sortGo fs names).1.mkdirFail = fs.mkdirFail ∧
    (sortGo fs names).1.moveFail = fs.moveFail := by
  intro names
  induction names with
  | nil => intro fs; exact ⟨rfl, rfl, rfl⟩
  | cons n rest ih =>
    intro fs
    rw [sortGo]
    split_ifs with hbr
    · exact ih fs
    · rcases hmv : move_file fs n with ⟨fs1, err⟩
      have hpres := move_file_misc fs n
      rw [hmv] at hpres
      cases err with
      | none =>
        have := ih fs1
        exact ⟨this.1.trans hpres.1, (this.2.1.trans hpres.2.1),
          (this.2.2.trans hpres.2.2)⟩
      | some e => exact hpres

theorem sortGo_no_error : ∀ (names : List String) (fs : FS),
    fs.mkdirFail = [] → (sortGo fs names).2 = none := by
  intro names
  induction names with
  | nil => intro fs _; rfl
  | cons n rest ih =>
    intro fs hmk
    rw [sortGo]
    split_ifs with hbr
    · exact ih fs hmk
    · rcases hmv : move_file fs n with ⟨fs1, err⟩
      have herr := move_file_no_error (f := n) hmk
      rw [hmv] at herr
      simp only at herr
      rw [herr]
      apply ih fs1
      have hpres := move_file_misc fs n
      rw [hmv] at hpres
      rw [hpres.2.1, hmk]

theorem sortGo_wf : ∀ (names : List String) (fs : FS),
    wellFormed fs → wellFormed (sortGo fs names).1 := by
  intro names
  induction names with
  | nil => intro fs h; exact h
  | cons n rest ih =>
    intro fs h
    rw [sortGo]
    split_ifs with hbr
    · exact ih fs h
    · rcases hmv : move_file fs n with ⟨fs1, err⟩
      have h1 : wellFormed fs1 := by
        have := move_file_wf (f := n) h
        rw [hmv] at this
        exact this
      cases err with
      | none => exact ih fs1 h1
      | some e => exact h1

theorem sortGo_entries_new : ∀ (names : List String) (fs : FS) (p : String × Bool),
    p ∈ (sortGo fs names).1.entries →
    p ∈ fs.entries ∨ (p.2 = true ∧ p.1 ∈ EXTENSION_MAP.map Prod.fst) := by
  intro names
  induction names with
  | nil => intro fs p hp; exact Or.inl hp
  | cons n rest ih =>
    intro fs p hp
    rw [sortGo] at hp
    split_ifs at hp with hbr
    · exact ih fs p hp
    · rcases hmv : move_file fs n with ⟨fs1, err⟩
      rw [hmv] at hp
      have hstep : p ∈ fs1.entries →
          p ∈ fs.entries ∨ (p.2 = true ∧ p.1 ∈ EXTENSION_MAP.map Prod.fst) := by
        intro hmem
        have := move_file_entries_new (f := n) (p := p) (by rw [hmv]; exact hmem)
        exact this
      cases err with
      | none =>
        rcases ih fs1 p hp with hmem | hclause
        · exact hstep hmem
        · exact Or.inr hclause
      | some e => exact hstep hp

theorem sortGo_frame : ∀ (names : List String) (fs : FS) (p : String × Bool),
    p ∈ fs.entries →
    (p.2 = true ∨ startsWithDot p.1 = true ∨ categoryOf p.1 = none) →
    p ∈ (sortGo fs names).1.entries := by
  intro names
  induction names with
  | nil => intro fs p hp _; exact hp
  | cons n rest ih =>
    intro fs p hp hcond
    rw [sortGo]
    split_ifs with hbr
    · exact ih fs p hp hcond
    · by_cases hpn : p.1 = n
      · -- the processed name is p itself: it is not a directory entry and
        -- not hidden (otherwise the branch would have been skipped), so it
        -- must be uncategorised and move_file leaves the state unchanged
        have hnotdir : ¬ p.2 = true := by
          intro hptrue
          apply hbr
          have : (p.1, true) ∈ fs.entries := by
            have : p = (p.1, true) := by
              rcases p with ⟨a, b⟩
              simp only at hptrue
              rw [hptrue]
            rw [← this]
            exact hp
          rw [hpn] at this
          rw [isdir_iff.2 this]
          rfl
        have hnothid : ¬ startsWithDot p.1 = true := by
          intro hdot
          apply hbr
          rw [hpn] at hdot
          rw [hdot]
          simp
        have hcat : categoryOf p.1 = none := by
          rcases hcond with h | h | h
          · exact absurd h hnotdir
          · exact absurd h hnothid
          · exact h
        rw [hpn] at hcat
        rcases hmv : move_file fs n with ⟨fs1, err⟩
        have : move_file fs n = (fs, none) := move_file_nocat hcat
        rw [this] at hmv
        have hfs1 : fs1 = fs := by
          have := congrArg Prod.fst hmv
          simp only at this
          exact this.symm
        have herr : err = none := by
          have := congrArg Prod.snd hmv
          simp only at this
          exact this.symm
        rw [hfs1, herr]
        exact ih fs p hp hcond
      · rcases hmv : move_file fs n with ⟨fs1, err⟩
        have hp1 : p ∈ fs1.entries := by
          have := move_file_entries_keep (f := n) hp hpn
          rw [hmv] at this
          exact this
        cases err with
        | none => exact ih fs1 p hp1 hcond
        | some e => exact hp1

theorem sortGo_moves : ∀ (names : List String) (fs : FS) (f c : String),
    wellFormed fs → fs.mkdirFail = [] → f ∈ names →
    isRootFile fs f = true → startsWithDot f = false →
    categoryOf f = some c → lookupFail fs.moveFail f = none →
    f ∉ ((sortGo fs names).1.entries.map Prod.fst) ∧
    ∃ g, (c, g) ∈ (sortGo fs names).1.sub ∧ ∃ k, g = candName f k := by
  intro names
  induction names with
  | nil => intro fs f c _ _ hmem _ _ _ _; cases hmem
  | cons n rest ih =>
    intro fs f c hwf hmk hmem hfile hdot hcat hmf
    rw [sortGo]
    split_ifs with hbr
    · have hne : f ≠ n := by
        intro heq
        rw [← heq, not_isdir_of_isRootFile hwf.1 hfile, hdot] at hbr
        simp at hbr
      have hmem' : f ∈ rest := by
        rcases List.mem_cons.1 hmem with h | h
        · exact absurd h hne
        · exact h
      exact ih fs f c hwf hmk hmem' hfile hdot hcat hmf
    · by_cases heq : f = n
      · subst heq
        rcases hmv : move_file fs f with ⟨fs1, err⟩
        have hsucc := move_file_success hwf hcat hmf hfile hmk
        rw [hmv] at hsucc
        have herr : err = none := hsucc.1
        rw [herr]
        show f ∉ ((sortGo fs1 rest).1.entries.map Prod.fst) ∧
          ∃ g, (c, g) ∈ (sortGo fs1 rest).1.sub ∧ ∃ k, g = candName f k
        constructor
        · intro hin
          rcases List.mem_map.1 hin with ⟨p, hp, hp1⟩
          rcases sortGo_entries_new rest fs1 p hp with hmem1 | hclause
          · exact hsucc.2.1 (List.mem_map.2 ⟨p, hmem1, hp1⟩)
          · exact cat_not_catName hcat (hp1 ▸ hclause.2)
        · rcases hsucc.2.2 with ⟨g, hg, hk⟩
          exact ⟨g, sortGo_sub_mono rest fs1 _ hg, hk⟩
      · rcases hmv : move_file fs n with ⟨fs1, err⟩
        have herr : err = none := by
          have := move_file_no_error (f := n) hmk
          rw [hmv] at this
          exact this
        rw [herr]
        have hpres := move_file_misc fs n
        rw [hmv] at hpres
        show f ∉ ((sortGo fs1 rest).1.entries.map Prod.fst) ∧
          ∃ g, (c, g) ∈ (sortGo fs1 rest).1.sub ∧ ∃ k, g = candName f k
        apply ih fs1 f c
        · have := move_file_wf (f := n) hwf
          rw [hmv] at this
          exact this
        · rw [hpres.2.1, hmk]
        · rcases List.mem_cons.1 hmem with h | h
          · exact absurd h heq
          · exact h
        · apply isRootFile_iff.2
          have := move_file_entries_keep (f := n) (p := (f, false))
            (isRootFile_iff.1 hfile) heq
          rw [hmv] at this
          exact this
        · exact hdot
        · exact hcat
        · rw [hpres.2.2]
          exact hmf

theorem sortGo_err_logged : ∀ (names : List String) (fs : FS) (f c m : String),
    wellFormed fs → fs.mkdirFail = [] → f ∈ names →
    isRootFile fs f = true → startsWithDot f = false →
    categoryOf f = some c → lookupFail fs.moveFail f = some m →
    errLine f m ∈ (sortGo fs names).1.log := by
  intro names
  induction names with
  | nil => intro fs f c m _ _ hmem _ _ _ _; cases hmem
  | cons n rest ih =>
    intro fs f c m hwf hmk hmem hfile hdot hcat hmf
    rw [sortGo]
    split_ifs with hbr
    · have hne : f ≠ n := by
        intro heq
        rw [← heq, not_isdir_of_isRootFile hwf.1 hfile, hdot] at hbr
        simp at hbr
      have hmem' : f ∈ rest := by
        rcases List.mem_cons.1 hmem with h | h
        · exact absurd h hne
        · exact h
      exact ih fs f c m hwf hmk hmem' hfile hdot hcat hmf
    · by_cases heq : f = n
      · subst heq
        rcases hmv : move_file fs f with ⟨fs1, err⟩
        have herr : err = none := by
          have := move_file_no_error (f := f) hmk
          rw [hmv] at this
          exact this
        rw [herr]
        have hlog := move_file_logs_err hcat hmf hmk
        rw [hmv] at hlog
        exact sortGo_log_mono rest fs1 _ hlog
      · rcases hmv : move_file fs n with ⟨fs1, err⟩
        have herr : err = none := by
          have := move_file_no_error (f := n) hmk
          rw [hmv] at this
          exact this
        rw [herr]
        have hpres := move_file_misc fs n
        rw [hmv] at hpres
        show errLine f m ∈ (sortGo fs1 rest).1.log
        apply ih fs1 f c m
        · have := move_file_wf (f := n) hwf
          rw [hmv] at this
          exact this
        · rw [hpres.2.1, hmk]
        · rcases List.mem_cons.1 hmem with h | h
          · exact absurd h heq
          · exact h
        · apply isRootFile_iff.2
          have := move_file_entries_keep (f := n) (p := (f, false))
            (isRootFile_iff.1 hfile) heq
          rw [hmv] at this
          exact this
        · exact hdot
        · exact hcat
        · rw [hpres.2.2]
          exact hmf

theorem sortGo_noop : ∀ (names : List String) (fs : FS),
    (∀ n ∈ names, (isdir fs n || startsWithDot n) = true ∨ categoryOf n = none) →
    sortGo fs names = (fs, none) := by
  intro names
  induction names with
  | nil => intro fs _; rfl
  | cons n rest ih =>
    intro fs h
    rw [sortGo]
    split_ifs with hbr
    · exact ih fs (fun x hx => h x (List.mem_cons_of_mem n hx))
    · have hcat : categoryOf n = none := by
        rcases h n (List.mem_cons_self n rest) with h1 | h1
        · exact absurd h1 hbr
        · exact h1
      rw [move_file_nocat hcat]
      exact ih fs (fun x hx => h x (List.mem_cons_of_mem n hx))

theorem sort_files_eq_sortGo {fs : FS} (hroot : fs.rootGone = false) :
    sort_files fs = sortGo fs (listdir fs) := by
  unfold sort_files
  rw [if_neg (by rw [hroot]; exact Bool.false_ne_true)]

theorem findCategory_first :
    ∀ (r1 : List (String × List String)) (c : String) (exts : List String)
      (r2 : List (String × List String)) (ext : String),
      (∀ p ∈ r1, ext ∉ p.2) → ext ∈ exts →
      findCategory (r1 ++ (c, exts) :: r2) ext = some c := by
  intro r1
  induction r1 with
  | nil =>
    intro c exts r2 ext _ h2
    rw [List.nil_append]
    unfold findCategory
    rw [if_pos h2]
  | cons hd tl ih =>
    intro c exts r2 ext h1 h2
    rcases hd with ⟨a, b⟩
    show findCategory ((a, b) :: (tl ++ (c, exts) :: r2)) ext = some c
    unfold findCategory
    rw [if_neg (h1 (a, b) (List.mem_cons_self _ _))]
    exact ih c exts r2 ext (fun p hp => h1 p (List.mem_cons_of_mem _ hp)) h2

theorem tryMove_sub_shape (fs : FS) (folder filename dest : String) :
    ∃ o : Option (String × String),
      (tryMove fs folder filename dest).sub = fs.sub ++ o.toList := by
  unfold tryMove
  cases hl : lookupFail fs.moveFail filename with
  | some m => exact ⟨none, by simp⟩
  | none =>
    split_ifs with hcond
    · exact ⟨some (folder, dest), by simp⟩
    · exact ⟨none, by simp⟩

theorem move_file_sub_shape (fs : FS) (f : String) :
    ∃ o : Option (String × String),
      (move_file fs f).1.sub = fs.sub ++ o.toList := by
  unfold move_file
  cases hcat : categoryOf f with
  | none => exact ⟨none, by simp⟩
  | some folder =>
    dsimp only
    split_ifs with h1 h2
    · exact tryMove_sub_shape fs folder f _
    · exact ⟨none, by simp⟩
    · exact tryMove_sub_shape _ folder f _

/-! Concrete states used to witness the claims. -/

/-- Root holding one mixed-case image file. -/
def fsPhoto : FS := ⟨[("photo.PNG", false)], [], false, [], [], []⟩

/-- Root holding a hidden file, a subfolder and an extensionless file,
plus a previously sorted image. -/
def fsMisc : FS :=
  ⟨[(".gitkeep", false), ("Misc", true), ("notes", false)],
   [("Images", "old.png")], false, [], [], []⟩

/-- Root where moving doc.pdf will fail with an injected permission
error while song.mp3 is movable. -/
def fsC4 : FS :=
  ⟨[("doc.pdf", false), ("song.mp3", false)], [], false, [],
   [("doc.pdf", "Permission denied")], []⟩

/-- Root where creating the Images folder fails while b.mp3 would be
destined for the (creatable) Audio folder. -/
def fsC5 : FS :=
  ⟨[("a.png", false), ("b.mp3", false)], [], false, ["Images"], [], []⟩

/-- State whose root directory has vanished. -/
def fsGone : FS := ⟨[], [], true, [], [], []⟩

/-! The claims. -/

/-- C1: for every non-hidden, non-directory file of the watched root
whose (case-insensitively compared) extension appears in EXTENSION_MAP,
an undisturbed rescan completes without error, after which the file is
gone from the root and an object with its original name - or, when a
collision forced it, its name with a numeric suffix spliced in before
the extension - exists inside the category subdirectory. -/
theorem rescan_moves_categorized_files (fs : FS) (f c : String)
    (hwf : wellFormed fs) (hroot : fs.rootGone = false) (hmk : fs.mkdirFail = [])
    (hmv : fs.moveFail = []) (hfile : (f, false) ∈ fs.entries)
    (hdot : startsWithDot f = false) (hcat : categoryOf f = some c) :
    (sort_files fs).2 = none ∧
    f ∉ ((sort_files fs).1.entries.map Prod.fst) ∧
    ∃ g, (c, g) ∈ (sort_files fs).1.sub ∧
      (g = f ∨ ∃ k, 1 ≤ k ∧
        g = (splitext f).1 ++ "(" ++ natToDec k ++ ")" ++ (splitext f).2) := by
  rw [sort_files_eq_sortGo hroot]
  have hmain := sortGo_moves (listdir fs) fs f c hwf hmk
    (mem_listdir_iff.2 ⟨false, hfile⟩) (isRootFile_iff.2 hfile) hdot hcat
    (by rw [hmv]; rfl)
  refine ⟨sortGo_no_error _ _ hmk, hmain.1, ?_⟩
  rcases hmain.2 with ⟨g, hg, k, hk⟩
  refine ⟨g, hg, ?_⟩
  cases k with
  | zero =>
    left
    rw [hk]
    rfl
  | succ k =>
    right
    exact ⟨k + 1, by omega, by rw [hk]; rfl⟩

theorem rescan_moves_categorized_files_witness :
    (sort_files fsPhoto).2 = none ∧
    "photo.PNG" ∉ ((sort_files fsPhoto).1.entries.map Prod.fst) ∧
    ∃ g, ("Images", g) ∈ (sort_files fsPhoto).1.sub ∧
      (g = "photo.PNG" ∨ ∃ k, 1 ≤ k ∧
        g = (splitext "photo.PNG").1 ++ "(" ++ natToDec k ++ ")" ++
          (splitext "photo.PNG").2) :=
  rescan_moves_categorized_files fsPhoto "photo.PNG" "Images"
    (by decide) (by decide) (by decide) (by decide) (by decide) (by decide)
    (by decide)

/-- C2: a rescan leaves every directory entry (whatever its name), every
hidden entry and every entry without a categorised extension in place,
and removes nothing from the category subdirectories. -/
theorem rescan_preserves_unrelated_entries (fs : FS) (p : String × Bool)
    (hp : p ∈ fs.entries)
    (hcond : p.2 = true ∨ startsWithDot p.1 = true ∨ categoryOf p.1 = none) :
    p ∈ (sort_files fs).1.entries ∧ ∀ q ∈ fs.sub, q ∈ (sort_files fs).1.sub := by
  unfold sort_files
  split_ifs with hr
  · exact ⟨hp, fun q hq => hq⟩
  · exact ⟨sortGo_frame _ fs p hp hcond,
      fun q hq => sortGo_sub_mono _ fs q hq⟩

theorem rescan_preserves_unrelated_entries_witness :
    (("Misc", true) ∈ (sort_files fsMisc).1.entries ∧
      ∀ q ∈ fsMisc.sub, q ∈ (sort_files fsMisc).1.sub) ∧
    ((".gitkeep", false) ∈ (sort_files fsMisc).1.entries ∧
      ∀ q ∈ fsMisc.sub, q ∈ (sort_files fsMisc).1.sub) ∧
    (("notes", false) ∈ (sort_files fsMisc).1.entries ∧
      ∀ q ∈ fsMisc.sub, q ∈ (sort_files fsMisc).1.sub) :=
  ⟨rescan_preserves_unrelated_entries fsMisc ("Misc", true) (by decide)
      (by decide),
   rescan_preserves_unrelated_entries fsMisc (".gitkeep", false) (by decide)
      (by decide),
   rescan_preserves_unrelated_entries fsMisc ("notes", false) (by decide)
      (by decide)⟩

/-- C3: get_unique_path probes the candidates in the exact order
filename, base(1)ext, base(2)ext, ... (candName enumerates them with
gap-free strictly increasing suffixes) and returns the first one that
does not currently exist in the target directory. -/
theorem get_unique_path_first_free (fs : FS) (target_dir filename : String) :
    ∃ k, get_unique_path fs target_dir filename = candName filename k ∧
      (∀ i < k, subExists fs target_dir (candName filename i) = true) ∧
      subExists fs target_dir (candName filename k) = false := by
  rcases get_unique_path_spec fs target_dir filename with ⟨k, _, h1, h2, h3⟩
  exact ⟨k, h1, h2, h3⟩

/-- C4: when shutil.move raises for one file, the failure is caught and
printed together with the filename and the exception detail, the rescan
still completes without an uncaught error, and every other movable
categorised file is still moved out of the root. -/
theorem move_failure_logged_and_rescan_continues (fs : FS) (f c m : String)
    (hwf : wellFormed fs) (hroot : fs.rootGone = false) (hmk : fs.mkdirFail = [])
    (hfile : (f, false) ∈ fs.entries) (hdot : startsWithDot f = false)
    (hcat : categoryOf f = some c) (hmf : lookupFail fs.moveFail f = some m) :
    (sort_files fs).2 = none ∧
    errLine f m ∈ (sort_files fs).1.log ∧
    ∀ g c', (g, false) ∈ fs.entries → startsWithDot g = false →
      categoryOf g = some c' → lookupFail fs.moveFail g = none →
      g ∉ ((sort_files fs).1.entries.map Prod.fst) := by
  rw [sort_files_eq_sortGo hroot]
  refine ⟨sortGo_no_error _ _ hmk, ?_, ?_⟩
  · exact sortGo_err_logged (listdir fs) fs f c m hwf hmk
      (mem_listdir_iff.2 ⟨false, hfile⟩) (isRootFile_iff.2 hfile) hdot hcat hmf
  · intro g c' hg hgdot hgcat hgmf
    exact (sortGo_moves (listdir fs) fs g c' hwf hmk
      (mem_listdir_iff.2 ⟨false, hg⟩) (isRootFile_iff.2 hg) hgdot hgcat hgmf).1

theorem move_failure_logged_and_rescan_continues_witness :
    (sort_files fsC4).2 = none ∧
    errLine "doc.pdf" "Permission denied" ∈ (sort_files fsC4).1.log ∧
    "song.mp3" ∉ ((sort_files fsC4).1.entries.map Prod.fst) := by
  have h := move_failure_logged_and_rescan_continues fsC4 "doc.pdf" "Documents"
    "Permission denied" (by decide) (by decide) (by decide) (by decide)
    (by decide) (by decide) (by decide)
  exact ⟨h.1, h.2.1, h.2.2 "song.mp3" "Audio" (by decide) (by decide)
    (by decide) (by decide)⟩

/-- C5 counterexample: with creation of the Images folder failing,
sort_files on a root holding a.png (Images) followed by b.mp3 (Audio)
aborts with the uncaught makedirs exception: nothing is logged, b.mp3 is
not processed, and no file reaches any category folder - contradicting
the claim that the failure is logged and the rescan continues with files
destined for other categories. -/
theorem mkdir_failure_not_recovered_cex :
    (sort_files fsC5).2 = some (Err.mkdirFailed "Images") ∧
    (sort_files fsC5).1.log = [] ∧
    ("b.mp3", false) ∈ (sort_files fsC5).1.entries ∧
    (sort_files fsC5).1.sub = [] := by decide

/-- C5 amended: when creating the category folder of the first processed
file fails, the exception propagates out of move_file and sort_files
uncaught: the rescan aborts at that point with the state unchanged - no
log line, no moves, and no later file (of any category) processed that
cycle. -/
theorem mkdir_failure_propagates (fs : FS) (f c : String) (ns : List String)
    (hroot : fs.rootGone = false) (hlist : listdir fs = f :: ns)
    (hdir : isdir fs f = false) (hdot : startsWithDot f = false)
    (hcat : categoryOf f = some c) (hex : isRootEntry fs c = false)
    (hmk : c ∈ fs.mkdirFail) :
    sort_files fs = (fs, some (Err.mkdirFailed c)) := by
  rw [sort_files_eq_sortGo hroot, hlist, sortGo]
  rw [if_neg (by rw [hdir, hdot]; simp)]
  have hmvf : move_file fs f = (fs, some (Err.mkdirFailed c)) := by
    unfold move_file
    rw [hcat]
    dsimp only
    rw [if_neg (by rw [hex]; exact Bool.false_ne_true), if_pos hmk]
  rw [hmvf]

theorem mkdir_failure_propagates_witness :
    sort_files fsC5 = (fsC5, some (Err.mkdirFailed "Images")) :=
  mkdir_failure_propagates fsC5 "a.png" "Images" ["b.mp3"]
    (by decide) (by decide) (by decide) (by decide) (by decide) (by decide)
    (by decide)

/-- C6: when listing the root fails, sort_files aborts that cycle
immediately, reporting the error to its caller with the state untouched,
and the notification loop (modelled from the spec: the watch facility
delivers events serially and survives a failed cycle) proceeds to the
following notifications, so a later rescan can retry. -/
theorem listdir_failure_aborts_cycle (fs : FS) (h : fs.rootGone = true) :
    sort_files fs = (fs, some Err.listFailed) ∧
    ∀ evs, runNotifications fs ((EventKind.modified, false) :: evs) =
      runNotifications fs evs := by
  have h1 : sort_files fs = (fs, some Err.listFailed) := by
    unfold sort_files
    rw [if_pos h]
  refine ⟨h1, ?_⟩
  intro evs
  have h2 : (dispatch fs EventKind.modified false).1 = fs := by
    show (sort_files fs).1 = fs
    rw [h1]
  show runNotifications (dispatch fs EventKind.modified false).1 evs =
    runNotifications fs evs
  rw [h2]

theorem listdir_failure_aborts_cycle_witness :
    sort_files fsGone = (fsGone, some Err.listFailed) ∧
    runNotifications fsGone [(EventKind.modified, false)] = fsGone := by
  have h := listdir_failure_aborts_cycle fsGone (by decide)
  exact ⟨h.1, (h.2 []).trans rfl⟩

/-- C7: the classification loop returns the first category, in the
configured order, whose extension set contains the extension - even when
a later category also lists it - and a single move_file call places at
most one new object, under exactly one category directory. -/
theorem classify_first_match_wins (ext : String)
    (r1 r2 : List (String × List String)) (c : String) (exts : List String)
    (h1 : ∀ p ∈ r1, ext ∉ p.2) (h2 : ext ∈ exts) :
    findCategory (r1 ++ (c, exts) :: r2) ext = some c ∧
    ∀ (fs : FS) (f : String), ∃ o : Option (String × String),
      (move_file fs f).1.sub = fs.sub ++ o.toList :=
  ⟨findCategory_first r1 c exts r2 ext h1 h2,
   fun fs f => move_file_sub_shape fs f⟩

theorem classify_first_match_wins_witness :
    findCategory [("A", [".y"]), ("B", [".x"]), ("C", [".x"])] ".x" = some "B" ∧
    ∃ o : Option (String × String),
      (move_file fsPhoto "photo.PNG").1.sub = fsPhoto.sub ++ o.toList := by
  have h := classify_first_match_wins ".x" [("A", [".y"])] [("C", [".x"])]
    "B" [".x"] (by decide) (by decide)
  exact ⟨h.1, h.2 fsPhoto "photo.PNG"⟩

/-- C8 counterexample: a "modified" notification that concerns a
directory triggers no rescan at all - the handler returns with the state
untouched even though a rescan would have moved photo.PNG - contradicting
the claim that the Sorter rescans on every notification whatever it
concerns. -/
theorem directory_event_triggers_no_rescan_cex :
    dispatch fsPhoto EventKind.modified true = (fsPhoto, none) ∧
    (sort_files fsPhoto).1.sub = [("Images", "photo.PNG")] := by decide

/-- C8 amended: only "modified" notifications for non-directory paths
trigger a rescan; modified events for directories, and events of any
other kind (whose inherited handlers are no-ops), leave the state
untouched. -/
theorem only_file_modified_events_rescan (fs : FS) (k : EventKind) (d : Bool)
    (hk : k ≠ EventKind.modified) :
    dispatch fs EventKind.modified false = sort_files fs ∧
    dispatch fs EventKind.modified true = (fs, none) ∧
    dispatch fs k d = (fs, none) := by
  refine ⟨rfl, rfl, ?_⟩
  cases k
  · rfl
  · rfl
  · exact absurd rfl hk
  · rfl

theorem only_file_modified_events_rescan_witness :
    dispatch fsPhoto EventKind.modified false = sort_files fsPhoto ∧
    dispatch fsPhoto EventKind.modified true = (fsPhoto, none) ∧
    dispatch fsPhoto EventKind.created false = (fsPhoto, none) :=
  only_file_modified_events_rescan fsPhoto EventKind.created false (by decide)

/-- C9: an undisturbed rescan is idempotent - running sort_files again
on the state a successful rescan produced is a no-op: no moves, no
directory creations, no new log lines and no error, the resulting state
being exactly the state after the first run. -/
theorem rescan_idempotent (fs : FS)
    (hwf : wellFormed fs) (hroot : fs.rootGone = false)
    (hmk : fs.mkdirFail = []) (hmv : fs.moveFail = []) :
    sort_files ((sort_files fs).1) = ((sort_files fs).1, none) := by
  rw [sort_files_eq_sortGo hroot]
  have hmisc := sortGo_misc (listdir fs) fs
  have h1root : (sortGo fs (listdir fs)).1.rootGone = false := hmisc.1.trans hroot
  have hkey : ∀ n ∈ listdir (sortGo fs (listdir fs)).1,
      (isdir (sortGo fs (listdir fs)).1 n || startsWithDot n) = true ∨
        categoryOf n = none := by
    intro n hn
    rcases mem_listdir_iff.1 hn with ⟨b, hb⟩
    cases b with
    | true =>
      left
      rw [isdir_iff.2 hb]
      rfl
    | false =>
      by_cases hdot : startsWithDot n = true
      · left
        rw [hdot]
        simp
      · by_cases hcat : categoryOf n = none
        · exact Or.inr hcat
        · exfalso
          rcases Option.ne_none_iff_exists'.1 hcat with ⟨c, hc⟩
          have hb0 : (n, false) ∈ fs.entries := by
            rcases sortGo_entries_new (listdir fs) fs (n, false) hb with h | h
            · exact h
            · cases h.1
          have hgone := (sortGo_moves (listdir fs) fs n c hwf hmk
            (mem_listdir_iff.2 ⟨false, hb0⟩) (isRootFile_iff.2 hb0)
            (by
              cases hsd : startsWithDot n
              · rfl
              · exact absurd hsd hdot)
            hc (by rw [hmv]; rfl)).1
          exact hgone (List.mem_map.2 ⟨(n, false), hb, rfl⟩)
  have hnoop := sortGo_noop (listdir (sortGo fs (listdir fs)).1)
    (sortGo fs (listdir fs)).1 hkey
  unfold sort_files
  rw [if_neg (by rw [h1root]; exact Bool.false_ne_true)]
  exact hnoop

theorem rescan_idempotent_witness :
    sort_files ((sort_files fsPhoto).1) = ((sort_files fsPhoto).1, none) :=
  rescan_idempotent fsPhoto (by decide) (by decide) (by decide) (by decide)

/-- C10: with finitely many objects recorded under the target directory,
the probe loop of get_unique_path finds a free candidate within
fs.sub.length + 1 probes and returns it: the returned name does not
exist in the target directory. -/
theorem get_unique_path_terminates (fs : FS) (target_dir filename : String) :
    subExists fs target_dir (get_unique_path fs target_dir filename) = false ∧
    ∃ k, k ≤ fs.sub.length ∧
      get_unique_path fs target_dir filename = candName filename k := by
  rcases get_unique_path_spec fs target_dir filename with ⟨k, hk, h1, _, h3⟩
  exact ⟨by rw [h1]; exact h3, k, hk, h1⟩

end AutoSort
